import Mathlib

/-!
Verification of the periodic-dataloader batching scheduler.

Shallow embedding of `src/periodicDataLoader.ts` (class `PeriodicDataLoader`).
Keys, values, per-slot errors and outright fetch failures are type parameters
`K`, `V`, `E`, `F`.  JavaScript specifics are modelled explicitly:

* a slot of the load function result is `LoadSlot V E` (`TValue | Error`);
  reading past the end of the returned array yields `undefined`, modelled by
  `Option (LoadSlot V E)` being `none` at out-of-range indices;
* the promise continuations of a pending key are not embedded as functions;
  instead every pending key carries a numeric request id and a flush produces
  the chronological list of continuation invocations (`Nat × Settle V E`);
* the JS `Map` used as cache is an association list with first-match lookup;
  `Map.set` with an `undefined` value stores `none`;
* `setTimeout` is modelled by a list of armed one-shot timer delays; firing a
  timer consumes it and runs the flush (`execute` / `executeUnique`), whose
  `loadFn` outcome is supplied as an `Except F _` argument (`Except.error`
  models the load promise rejecting outright, which the source does not catch).
-/

set_option linter.unusedSectionVars false

namespace PDL

/-- A slot of the array returned by the load function: `TValue | Error`. -/
inductive LoadSlot (V E : Type) where
  | value (v : V)
  | error (e : E)
deriving DecidableEq

/-- Reasons the source rejects a pending promise with. -/
inductive RejectReason (E : Type) where
  | arityMismatch
  | loadError (e : E)
deriving DecidableEq

/-- One invocation of a pending key's `resolve` or `reject` continuation.
`resolve none` models `resolve(undefined)`. -/
inductive Settle (V E : Type) where
  | resolve (v : Option V)
  | reject (r : RejectReason E)
deriving DecidableEq

variable {K V E F : Type} [DecidableEq K]

/-- JS `Map.get` combined with `Map.has`: `some stored` iff the key is present. -/
def cacheGet (cm : List (K × Option V)) (k : K) : Option (Option V) :=
  (cm.find? (fun p => p.1 = k)).map Prod.snd

/-- JS `Map.set`: update in place when present, append otherwise. -/
def cacheSet (cm : List (K × Option V)) (k : K) (v : Option V) :
    List (K × Option V) :=
  if cm.any (fun p => p.1 = k) then
    cm.map (fun p => if p.1 = k then (k, v) else p)
  else cm ++ [(k, v)]

/-- JS `Map.delete`. -/
def cacheDelete (cm : List (K × Option V)) (k : K) : List (K × Option V) :=
  cm.filter (fun p => ¬ p.1 = k)

/-- Per-slot loop of `execute`: walks the drained batch and the returned values
in index lockstep (`values[tpkidx]`); an exhausted value list models the JS
`undefined` read, which is not an `Error` and so is cached and resolved. -/
def executeLoop (cacheEnabled : Bool) :
    List (Nat × K) → List (LoadSlot V E) → List (K × Option V) →
      List (Nat × Settle V E) × List (K × Option V)
  | [], _, cm => ([], cm)
  | (id, _) :: tpks, LoadSlot.error e :: vs, cm =>
      let r := executeLoop cacheEnabled tpks vs cm
      ((id, Settle.reject (RejectReason.loadError e)) :: r.1, r.2)
  | (id, k) :: tpks, LoadSlot.value v :: vs, cm =>
      let cm1 := if cacheEnabled then cacheSet cm k (some v) else cm
      let r := executeLoop cacheEnabled tpks vs cm1
      ((id, Settle.resolve (some v)) :: r.1, r.2)
  | (id, k) :: tpks, [], cm =>
      let cm1 := if cacheEnabled then cacheSet cm k none else cm
      let r := executeLoop cacheEnabled tpks [] cm1
      ((id, Settle.resolve none) :: r.1, r.2)

/-- `execute` of the source, given the drained batch and the values the load
function returned: the arity check rejects everything on mismatch, and then the
per-slot loop runs unconditionally (the source has no early return). -/
def execute (cacheEnabled : Bool) (cm : List (K × Option V))
    (tpks : List (Nat × K)) (values : List (LoadSlot V E)) :
    List (Nat × Settle V E) × List (K × Option V) :=
  let targetKeys := tpks.map Prod.snd
  let arityEvents : List (Nat × Settle V E) :=
    if targetKeys.length ≠ values.length then
      tpks.map (fun p => (p.1, Settle.reject RejectReason.arityMismatch))
    else []
  let r := executeLoop cacheEnabled tpks values cm
  (arityEvents ++ r.1, r.2)

/-- One step of building `mergedTargetPendingKeys`: a JS `Map` keeps first-seen
key order and we append the new resolve/reject pair to an existing entry. -/
def addMerge (acc : List (K × List Nat)) (id : Nat) (k : K) :
    List (K × List Nat) :=
  if acc.any (fun p => p.1 = k) then
    acc.map (fun p => if p.1 = k then (p.1, p.2 ++ [id]) else p)
  else acc ++ [(k, [id])]

/-- The `mergedTargetPendingKeys` map of `executeUnique`, as the insertion-order
association list from each distinct key to the ids of all callers waiting on it. -/
def mergePending (tpks : List (Nat × K)) : List (K × List Nat) :=
  tpks.foldl (fun acc p => addMerge acc p.1 p.2) []

/-- `targetKeys` of `executeUnique`: `Array.from(mergedTargetPendingKeys.keys())`. -/
def uniqueTargetKeys (tpks : List (Nat × K)) : List K :=
  (mergePending tpks).map Prod.fst

/-- Per-slot loop of `executeUnique`: walks the merged entries (whose order is
`targetKeys`) and the returned values in index lockstep. -/
def executeUniqueLoop (cacheEnabled : Bool) :
    List (K × List Nat) → List (LoadSlot V E) → List (K × Option V) →
      List (Nat × Settle V E) × List (K × Option V)
  | [], _, cm => ([], cm)
  | (_, ids) :: ms, LoadSlot.error e :: vs, cm =>
      let r := executeUniqueLoop cacheEnabled ms vs cm
      (ids.map (fun id => (id, Settle.reject (RejectReason.loadError e))) ++ r.1, r.2)
  | (k, ids) :: ms, LoadSlot.value v :: vs, cm =>
      let cm1 := if cacheEnabled then cacheSet cm k (some v) else cm
      let r := executeUniqueLoop cacheEnabled ms vs cm1
      (ids.map (fun id => (id, Settle.resolve (some v))) ++ r.1, r.2)
  | (k, ids) :: ms, [], cm =>
      let cm1 := if cacheEnabled then cacheSet cm k none else cm
      let r := executeUniqueLoop cacheEnabled ms [] cm1
      (ids.map (fun id => (id, Settle.resolve none)) ++ r.1, r.2)

/-- `executeUnique` of the source: merge duplicate keys, arity-check against the
distinct key list, then run the per-slot loop unconditionally. -/
def executeUnique (cacheEnabled : Bool) (cm : List (K × Option V))
    (tpks : List (Nat × K)) (values : List (LoadSlot V E)) :
    List (Nat × Settle V E) × List (K × Option V) :=
  let merged := mergePending tpks
  let arityEvents : List (Nat × Settle V E) :=
    if (merged.map Prod.fst).length ≠ values.length then
      merged.flatMap
        (fun p => p.2.map (fun id => (id, Settle.reject RejectReason.arityMismatch)))
    else []
  let r := executeUniqueLoop cacheEnabled merged values cm
  (arityEvents ++ r.1, r.2)

/-- The mutable state of a `PeriodicDataLoader` instance, plus the set of armed
`setTimeout` timers (their delays) and a fresh-id counter for pending promises. -/
structure LoaderState (K V : Type) where
  batchInterval : Int
  cache : Bool
  unique : Bool
  pendingKeys : List (Nat × K)
  lastExecutionTime : Int
  cacheMap : List (K × Option V)
  armedTimers : List Int
  nextId : Nat
deriving DecidableEq

/-- The constructor: `lastExecutionTime` is initialized to `Date.now()` at
construction time; no pending keys and no timer exist yet. -/
def mkLoader (batchInterval : Int) (cacheEnabled : Bool)
    (cacheMap : List (K × Option V)) (uniqueEnabled : Bool)
    (constructionTime : Int) : LoaderState K V :=
  { batchInterval := batchInterval
    cache := cacheEnabled
    unique := uniqueEnabled
    pendingKeys := []
    lastExecutionTime := constructionTime
    cacheMap := cacheMap
    armedTimers := []
    nextId := 0 }

/-- `addToPendingKeys`: always push; when the queue was empty, additionally arm
one `setTimeout` with delay `max(batchInterval - (now - lastExecutionTime), 0)`. -/
def addToPendingKeys (s : LoaderState K V) (k : K) (now : Int) : LoaderState K V :=
  if s.pendingKeys.length > 0 then
    { s with pendingKeys := s.pendingKeys ++ [(s.nextId, k)], nextId := s.nextId + 1 }
  else
    let timeAfterLastExecution := now - s.lastExecutionTime
    let targetDelay := max (s.batchInterval - timeAfterLastExecution) 0
    { s with pendingKeys := s.pendingKeys ++ [(s.nextId, k)]
             nextId := s.nextId + 1
             armedTimers := s.armedTimers ++ [targetDelay] }

/-- Outcome of a `loadSingle` call: resolved from cache on the spot, or a new
pending promise with the given request id. -/
inductive SingleOutcome (V : Type) where
  | immediate (v : Option V)
  | enqueued (id : Nat)
deriving DecidableEq

/-- `loadSingle`: cache hit resolves immediately with the stored value and
touches nothing; otherwise the key goes through `addToPendingKeys`. -/
def loadSingle (s : LoaderState K V) (k : K) (now : Int) :
    SingleOutcome V × LoaderState K V :=
  if s.cache then
    match cacheGet s.cacheMap k with
    | some stored => (SingleOutcome.immediate stored, s)
    | none => (SingleOutcome.enqueued s.nextId, addToPendingKeys s k now)
  else (SingleOutcome.enqueued s.nextId, addToPendingKeys s k now)

/-- `loadMultiple`: `Promise.all(keys.map((key) => this.loadSingle(key)))`; the
executors run synchronously in input order. -/
def loadMultiple (s : LoaderState K V) (keys : List K) (now : Int) :
    List (SingleOutcome V) × LoaderState K V :=
  match keys with
  | [] => ([], s)
  | k :: ks =>
      let r := loadSingle s k now
      let rs := loadMultiple r.2 ks now
      (r.1 :: rs.1, rs.2)

/-- `clearCache`: delete one key from the cache map when caching is enabled. -/
def clearCache (s : LoaderState K V) (k : K) : LoaderState K V :=
  if s.cache then { s with cacheMap := cacheDelete s.cacheMap k } else s

/-- `clearCacheMultiple`: delete each given key when caching is enabled. -/
def clearCacheMultiple (s : LoaderState K V) (keys : List K) : LoaderState K V :=
  if s.cache then
    { s with cacheMap := keys.foldl (fun cm k => cacheDelete cm k) s.cacheMap }
  else s

/-- `clearCacheAll`: clear the cache map when caching is enabled. -/
def clearCacheAll (s : LoaderState K V) : LoaderState K V :=
  if s.cache then { s with cacheMap := [] } else s

/-- The key list the firing timer passes to `loadFn`: every pending key in
arrival order, or the distinct keys when `unique` is set. -/
def flushKeys (s : LoaderState K V) : List K :=
  if s.unique then uniqueTargetKeys s.pendingKeys
  else s.pendingKeys.map Prod.snd

/-- The armed timer firing: drain the queue, stamp `lastExecutionTime`, consume
the timer, then `await loadFn`.  When the load promise rejects outright
(`Except.error`), the source has no catch: the exception escapes `execute` /
`executeUnique` before any continuation is invoked, so no settle events are
produced and the cache is untouched. -/
def flush (s : LoaderState K V) (now : Int)
    (outcome : Except F (List (LoadSlot V E))) :
    Except F (List (Nat × Settle V E)) × LoaderState K V :=
  let batch := s.pendingKeys
  let s1 := { s with pendingKeys := ([] : List (Nat × K))
                     lastExecutionTime := now
                     armedTimers := s.armedTimers.drop 1 }
  match outcome with
  | Except.error f => (Except.error f, s1)
  | Except.ok values =>
      let r := if s.unique then executeUnique s.cache s.cacheMap batch values
               else execute s.cache s.cacheMap batch values
      (Except.ok r.1, { s1 with cacheMap := r.2 })

/-- The queue/timer invariant of the spec: a non-empty pending queue has exactly
one armed timer, an empty queue has none. -/
def timerInv (s : LoaderState K V) : Prop :=
  (s.pendingKeys = [] → s.armedTimers = []) ∧
  (s.pendingKeys ≠ [] → s.armedTimers.length = 1)

instance (s : LoaderState K V) : Decidable (timerInv s) := by
  unfold timerInv; infer_instance

/-- Spec-side description of deduplication: keep each key not yet seen, in
first-seen order. -/
def dedupSeen (seen : List K) : List K → List K
  | [] => []
  | k :: ks => if k ∈ seen then dedupSeen seen ks else k :: dedupSeen (k :: seen) ks

/-- Spec-side description: the distinct keys of a list in first-seen order. -/
def dedupFirstSeen (l : List K) : List K := dedupSeen [] l

/-- Spec-side regrouping of a batch: for each distinct key in first-seen order,
the ids of all callers that requested it, in arrival order. -/
def groupSpec (tpks : List (Nat × K)) : List (K × List Nat) :=
  (dedupFirstSeen (tpks.map Prod.snd)).map
    (fun k => (k, (tpks.filter (fun p => p.2 = k)).map Prod.fst))

/-- The settlement an in-range slot dictates (an out-of-range read, `none`,
is the JS `undefined`, which resolves). -/
def slotSettle (slot : Option (LoadSlot V E)) : Settle V E :=
  match slot with
  | some (LoadSlot.error e) => Settle.reject (RejectReason.loadError e)
  | some (LoadSlot.value v) => Settle.resolve (some v)
  | none => Settle.resolve none

/-- Request `id` is settled as `s` by the event list: some event settles it as
`s`, and every event aimed at it settles it as `s`. -/
def settledAs (events : List (Nat × Settle V E)) (id : Nat) (s : Settle V E) :
    Prop :=
  (id, s) ∈ events ∧ ∀ p ∈ events, p.1 = id → p.2 = s

/-- Deduplication only looks at membership of the seen list. -/
theorem dedupSeen_congr (l : List K) :
    ∀ {s₁ s₂ : List K}, (∀ x, x ∈ s₁ ↔ x ∈ s₂) →
      dedupSeen s₁ l = dedupSeen s₂ l := by
  induction l with
  | nil => intro s₁ s₂ _; rfl
  | cons k ks ih =>
      intro s₁ s₂ h
      by_cases hk : k ∈ s₁
      · rw [dedupSeen, dedupSeen, if_pos hk, if_pos ((h k).mp hk)]
        exact ih h
      · rw [dedupSeen, dedupSeen, if_neg hk, if_neg (fun hx => hk ((h k).mpr hx))]
        have hrec : dedupSeen (k :: s₁) ks = dedupSeen (k :: s₂) ks :=
          ih (fun x => by simp [List.mem_cons, h x])
        rw [hrec]

/-- Membership in a deduplicated list: in the input and not previously seen. -/
theorem mem_dedupSeen (l : List K) :
    ∀ {seen : List K} {x : K}, x ∈ dedupSeen seen l ↔ x ∈ l ∧ x ∉ seen := by
  induction l with
  | nil => intro seen x; simp [dedupSeen]
  | cons k ks ih =>
      intro seen x
      by_cases hk : k ∈ seen
      · rw [dedupSeen, if_pos hk, ih]
        constructor
        · rintro ⟨hx, hxs⟩; exact ⟨List.mem_cons_of_mem _ hx, hxs⟩
        · rintro ⟨hx, hxs⟩
          rcases List.mem_cons.mp hx with h1 | h1
          · exact absurd (h1 ▸ hk) hxs
          · exact ⟨h1, hxs⟩
      · rw [dedupSeen, if_neg hk]
        constructor
        · intro hx
          rcases List.mem_cons.mp hx with h1 | h1
          · exact ⟨h1 ▸ List.mem_cons_self k ks, h1 ▸ hk⟩
          · rcases ih.mp h1 with ⟨hx1, hx2⟩
            exact ⟨List.mem_cons_of_mem _ hx1,
              fun hs => hx2 (List.mem_cons_of_mem _ hs)⟩
        · rintro ⟨hx, hxs⟩
          by_cases hxk : x = k
          · exact hxk ▸ List.mem_cons_self k _
          · rcases List.mem_cons.mp hx with h1 | h1
            · exact absurd h1 hxk
            · exact List.mem_cons_of_mem _
                (ih.mpr ⟨h1, fun hs => (List.mem_cons.mp hs).elim hxk hxs⟩)

/-- A deduplicated list has no duplicates. -/
theorem dedupSeen_nodup (l : List K) : ∀ seen : List K, (dedupSeen seen l).Nodup := by
  induction l with
  | nil => intro seen; simp [dedupSeen]
  | cons k ks ih =>
      intro seen
      by_cases hk : k ∈ seen
      · rw [dedupSeen, if_pos hk]; exact ih seen
      · rw [dedupSeen, if_neg hk]
        refine List.nodup_cons.mpr ⟨?_, ih _⟩
        intro hmem
        exact ((mem_dedupSeen ks).mp hmem).2 (List.mem_cons_self k seen)

/-- Positions in a list without duplicates are determined by the element. -/
theorem nodup_getElem?_inj {α : Type} {l : List α} (h : l.Nodup) :
    ∀ {i j : Nat} {a : α}, l[i]? = some a → l[j]? = some a → i = j := by
  induction l with
  | nil => intro i j a hi _; simp at hi
  | cons x t ih =>
      intro i j a hi hj
      rcases List.nodup_cons.mp h with ⟨hx, ht⟩
      match i, j with
      | 0, 0 => rfl
      | 0, j + 1 =>
          rw [List.getElem?_cons_zero] at hi
          rw [List.getElem?_cons_succ] at hj
          cases Option.some.inj hi
          exact absurd (List.getElem?_mem hj) hx
      | i + 1, 0 =>
          rw [List.getElem?_cons_zero] at hj
          rw [List.getElem?_cons_succ] at hi
          cases Option.some.inj hj
          exact absurd (List.getElem?_mem hi) hx
      | i + 1, j + 1 =>
          rw [List.getElem?_cons_succ] at hi hj
          exact congrArg Nat.succ (ih ht hi hj)

/-- In a list of pairs whose first components are distinct, the first component
determines the pair. -/
theorem snd_eq_of_nodup_fst {α β : Type} {l : List (α × β)}
    (h : (l.map Prod.fst).Nodup) :
    ∀ {a : α} {b₁ b₂ : β}, (a, b₁) ∈ l → (a, b₂) ∈ l → b₁ = b₂ := by
  induction l with
  | nil => intro a b₁ b₂ h₁ _; simp at h₁
  | cons p t ih =>
      intro a b₁ b₂ h₁ h₂
      rw [List.map_cons, List.nodup_cons] at h
      rcases h with ⟨hp, ht⟩
      rcases List.mem_cons.mp h₁ with h1 | h1 <;>
        rcases List.mem_cons.mp h₂ with h2 | h2
      · exact congrArg Prod.snd (h1.trans h2.symm)
      · exfalso
        apply hp
        have : p.1 = a := by rw [← h1]
        rw [this]
        exact List.mem_map.mpr ⟨(a, b₂), h2, rfl⟩
      · exfalso
        apply hp
        have : p.1 = a := by rw [← h2]
        rw [this]
        exact List.mem_map.mpr ⟨(a, b₁), h1, rfl⟩
      · exact ih ht h1 h2

/-- Folding `addMerge` over a batch, started from any accumulator: existing
entries get the ids of their key appended, and the keys not yet present are
grouped in first-seen order. -/
theorem foldl_addMerge (l : List (Nat × K)) :
    ∀ acc : List (K × List Nat),
      l.foldl (fun acc p => addMerge acc p.1 p.2) acc =
        acc.map (fun q => (q.1, q.2 ++ (l.filter (fun p => p.2 = q.1)).map Prod.fst))
          ++ (dedupSeen (acc.map Prod.fst) (l.map Prod.snd)).map
              (fun k => (k, (l.filter (fun p => p.2 = k)).map Prod.fst)) := by
  induction l with
  | nil =>
      intro acc
      simp [dedupSeen]
  | cons hd tl ih =>
      intro acc
      obtain ⟨id, k⟩ := hd
      rw [List.foldl_cons, ih (addMerge acc id k)]
      by_cases hk : k ∈ acc.map Prod.fst
      · have hany : (acc.any (fun p => p.1 = k)) = true := by
          rw [List.any_eq_true]
          rcases List.mem_map.mp hk with ⟨q, hq, hq1⟩
          exact ⟨q, hq, by simp [hq1]⟩
        have hmerge : addMerge acc id k =
            acc.map (fun p => if p.1 = k then (p.1, p.2 ++ [id]) else p) := by
          rw [addMerge, if_pos hany]
        have hfst : ((acc.map (fun p => if p.1 = k then (p.1, p.2 ++ [id]) else p)).map
            Prod.fst) = acc.map Prod.fst := by
          rw [List.map_map]
          refine List.map_congr_left ?_
          intro p _
          by_cases hpk : p.1 = k <;> simp [hpk]
        rw [hmerge, hfst]
        have hded : dedupSeen (acc.map Prod.fst)
            (((id, k) :: tl).map Prod.snd) =
            dedupSeen (acc.map Prod.fst) (tl.map Prod.snd) := by
          rw [List.map_cons, dedupSeen, if_pos hk]
        rw [hded]
        congr 1
        · rw [List.map_map]
          refine List.map_congr_left ?_
          intro q _
          by_cases hqk : q.1 = k
          · simp [Function.comp, hqk, List.filter_cons, List.append_assoc]
          · simp [Function.comp, hqk, List.filter_cons, Ne.symm hqk]
        · refine List.map_congr_left ?_
          intro x hx
          have hxk : x ≠ k := by
            intro hxe
            exact ((mem_dedupSeen (tl.map Prod.snd)).mp hx).2 (hxe ▸ hk)
          simp [List.filter_cons, Ne.symm hxk]
      · have hany : (acc.any (fun p => p.1 = k)) = false := by
          rw [Bool.eq_false_iff]
          intro hc
          rcases List.any_eq_true.mp hc with ⟨q, hq, hq1⟩
          exact hk (List.mem_map.mpr ⟨q, hq, by simpa using hq1⟩)
        have hmerge : addMerge acc id k = acc ++ [(k, [id])] := by
          rw [addMerge, hany]
          simp
        have hded2 : dedupSeen (acc.map Prod.fst) (((id, k) :: tl).map Prod.snd) =
            k :: dedupSeen (k :: acc.map Prod.fst) (tl.map Prod.snd) := by
          rw [List.map_cons, dedupSeen, if_neg hk]
        rw [hmerge, hded2]
        have hfst : (acc ++ [(k, [id])]).map Prod.fst = acc.map Prod.fst ++ [k] := by
          simp
        rw [hfst]
        have hded1 : dedupSeen (acc.map Prod.fst ++ [k]) (tl.map Prod.snd) =
            dedupSeen (k :: acc.map Prod.fst) (tl.map Prod.snd) :=
          dedupSeen_congr _ (fun x => by simp [or_comm])
        rw [hded1]
        have hsplit : (acc ++ [(k, [id])]).map
            (fun q => (q.1, q.2 ++ (tl.filter (fun p => p.2 = q.1)).map Prod.fst)) =
            acc.map (fun q => (q.1, q.2 ++ (tl.filter (fun p => p.2 = q.1)).map Prod.fst))
              ++ [(k, [id] ++ (tl.filter (fun p => p.2 = k)).map Prod.fst)] := by
          simp
        rw [hsplit, List.map_cons]
        have hacc : acc.map
            (fun q => (q.1, q.2 ++ (tl.filter (fun p => p.2 = q.1)).map Prod.fst)) =
            acc.map (fun q =>
              (q.1, q.2 ++ (((id, k) :: tl).filter (fun p => p.2 = q.1)).map Prod.fst)) := by
          refine List.map_congr_left ?_
          intro q hq
          have hqk : q.1 ≠ k := by
            intro he
            exact hk (he ▸ List.mem_map.mpr ⟨q, hq, rfl⟩)
          simp [List.filter_cons, Ne.symm hqk]
        have hgrp : (dedupSeen (k :: acc.map Prod.fst) (tl.map Prod.snd)).map
            (fun x => (x, (tl.filter (fun p => p.2 = x)).map Prod.fst)) =
            (dedupSeen (k :: acc.map Prod.fst) (tl.map Prod.snd)).map
            (fun x => (x, (((id, k) :: tl).filter (fun p => p.2 = x)).map Prod.fst)) := by
          refine List.map_congr_left ?_
          intro x hx
          have hxk : x ≠ k := by
            intro hxe
            exact ((mem_dedupSeen (tl.map Prod.snd)).mp hx).2
              (hxe ▸ List.mem_cons_self k _)
          simp [List.filter_cons, Ne.symm hxk]
        have hkey : ((k : K), ([id] : List Nat) ++
            (tl.filter (fun p => p.2 = k)).map Prod.fst) =
            (k, (((id, k) :: tl).filter (fun p => p.2 = k)).map Prod.fst) := by
          simp [List.filter_cons]
        rw [hacc, hgrp, hkey]
        simp

/-- The merged map of `executeUnique` groups the batch by key: distinct keys in
first-seen order, each with the arrival-ordered ids of its callers. -/
theorem mergePending_eq_groupSpec (tpks : List (Nat × K)) :
    mergePending tpks = groupSpec tpks := by
  have h := foldl_addMerge tpks []
  simpa [mergePending, groupSpec, dedupFirstSeen] using h

/-- The key list `executeUnique` passes to the load function is the batch's
distinct keys in first-seen order. -/
theorem uniqueTargetKeys_eq (tpks : List (Nat × K)) :
    uniqueTargetKeys tpks = dedupFirstSeen (tpks.map Prod.snd) := by
  rw [uniqueTargetKeys, mergePending_eq_groupSpec, groupSpec, List.map_map,
    dedupFirstSeen]
  exact List.map_id'' (fun x => rfl) _

/-- With matching batch and value lengths, the per-slot loop of `execute`
settles the request at each position exactly as its slot dictates. -/
theorem executeLoop_events_eq (c : Bool) :
    ∀ (tpks : List (Nat × K)) (values : List (LoadSlot V E))
      (cm : List (K × Option V)), tpks.length = values.length →
      (executeLoop c tpks values cm).1 =
        List.zipWith (fun p slot => (p.1, slotSettle (some slot))) tpks values := by
  intro tpks
  induction tpks with
  | nil => intro values cm _; simp [executeLoop]
  | cons p tpks ih =>
      intro values cm h
      obtain ⟨id, k⟩ := p
      cases values with
      | nil => simp at h
      | cons v vs =>
          have h' : tpks.length = vs.length := by simpa using h
          cases v with
          | value x =>
              have hrec := ih vs (if c then cacheSet cm k (some x) else cm) h'
              simp [executeLoop, hrec, slotSettle]
          | error e =>
              have hrec := ih vs cm h'
              simp [executeLoop, hrec, slotSettle]

/-- One step of the `executeUnique` per-slot loop: the head entry's callers are
all settled as slot 0 dictates, and the loop continues on the tails. -/
theorem executeUniqueLoop_cons (c : Bool) (k : K) (ids : List Nat)
    (ms : List (K × List Nat)) (values : List (LoadSlot V E))
    (cm : List (K × Option V)) :
    ∃ cm1, (executeUniqueLoop c ((k, ids) :: ms) values cm).1 =
      ids.map (fun id => (id, slotSettle values[0]?)) ++
        (executeUniqueLoop c ms values.tail cm1).1 := by
  cases values with
  | nil =>
      exact ⟨if c then cacheSet cm k none else cm,
        by simp [executeUniqueLoop, slotSettle]⟩
  | cons v vs =>
      cases v with
      | value x =>
          exact ⟨if c then cacheSet cm k (some x) else cm,
            by simp [executeUniqueLoop, slotSettle]⟩
      | error e => exact ⟨cm, by simp [executeUniqueLoop, slotSettle]⟩

/-- Every settlement the `executeUnique` loop produces is aimed at the id of
some merged entry. -/
theorem executeUniqueLoop_fst_mem (c : Bool) :
    ∀ (ms : List (K × List Nat)) (values : List (LoadSlot V E))
      (cm : List (K × Option V)) (p : Nat × Settle V E),
      p ∈ (executeUniqueLoop c ms values cm).1 →
      ∃ (j : Nat) (e : K × List Nat), ms[j]? = some e ∧ p.1 ∈ e.2 := by
  intro ms
  induction ms with
  | nil => intro values cm p hp; simp [executeUniqueLoop] at hp
  | cons m ms ih =>
      intro values cm p hp
      obtain ⟨k, ids⟩ := m
      obtain ⟨cm1, he⟩ := executeUniqueLoop_cons c k ids ms values cm
      rw [he] at hp
      rcases List.mem_append.mp hp with h | h
      · rcases List.mem_map.mp h with ⟨id, hid, hpe⟩
        subst hpe
        exact ⟨0, (k, ids), by simp, hid⟩
      · obtain ⟨j, e, hj, hmem⟩ := ih values.tail cm1 p h
        exact ⟨j + 1, e, by simpa using hj, hmem⟩

/-- A caller that appears in exactly the merged entry at position `i` is
settled by the `executeUnique` loop exactly as slot `i` dictates. -/
theorem executeUniqueLoop_settledAs (c : Bool) :
    ∀ (ms : List (K × List Nat)) (values : List (LoadSlot V E))
      (cm : List (K × Option V)) (i : Nat) (k : K) (ids : List Nat) (id : Nat),
      ms.length = values.length →
      ms[i]? = some (k, ids) → id ∈ ids →
      (∀ j e, ms[j]? = some e → id ∈ e.2 → j = i) →
      settledAs (executeUniqueLoop c ms values cm).1 id (slotSettle values[i]?) := by
  intro ms
  induction ms with
  | nil => intro values cm i k ids id _ hi; simp at hi
  | cons m ms ih =>
      intro values cm i k ids id hlen hi hid honly
      obtain ⟨k0, ids0⟩ := m
      obtain ⟨cm1, he⟩ := executeUniqueLoop_cons c k0 ids0 ms values cm
      rw [he]
      cases values with
      | nil => simp at hlen
      | cons v vs =>
          have hlen' : ms.length = vs.length := by simpa using hlen
          match i, hi with
          | 0, hi =>
              rw [List.getElem?_cons_zero] at hi
              have hpair := Option.some.inj hi
              have hids : ids0 = ids := congrArg Prod.snd hpair
              subst hids
              constructor
              · exact List.mem_append_left _ (List.mem_map.mpr ⟨id, hid, rfl⟩)
              · intro p hp hpid
                rcases List.mem_append.mp hp with h | h
                · rcases List.mem_map.mp h with ⟨id', _, hpe⟩
                  rw [← hpe]
                · exfalso
                  obtain ⟨j, e, hj, hmem⟩ :=
                    executeUniqueLoop_fst_mem c ms vs cm1 p h
                  have hj1 : ((k0, ids0) :: ms)[j + 1]? = some e := by simpa using hj
                  exact Nat.succ_ne_zero j (honly (j + 1) e hj1 (hpid ▸ hmem))
          | i + 1, hi =>
              rw [List.getElem?_cons_succ] at hi
              have honly' : ∀ j e, ms[j]? = some e → id ∈ e.2 → j = i := by
                intro j e hj hm
                have hj1 : ((k0, ids0) :: ms)[j + 1]? = some e := by simpa using hj
                have := honly (j + 1) e hj1 hm
                omega
              have hrec := ih vs cm1 i k ids id hlen' hi hid honly'
              rw [List.getElem?_cons_succ]
              obtain ⟨hmem, hall⟩ := hrec
              constructor
              · exact List.mem_append_right _ hmem
              · intro p hp hpid
                rcases List.mem_append.mp hp with h | h
                · exfalso
                  rcases List.mem_map.mp h with ⟨id', hid', hpe⟩
                  have hig : id' = id := by rw [← hpe] at hpid; exact hpid
                  have hid0 : id ∈ ids0 := hig ▸ hid'
                  have hz : ((k0, ids0) :: ms)[0]? = some (k0, ids0) := by simp
                  have := honly 0 (k0, ids0) hz hid0
                  omega
                · exact hall p h hpid

/-- With matching arity and distinct request ids, `execute` settles the request
at each batch position exactly as the slot at the same position dictates. -/
theorem execute_settledAs (c : Bool) (cm : List (K × Option V))
    (tpks : List (Nat × K)) (values : List (LoadSlot V E))
    (hnodup : (tpks.map Prod.fst).Nodup)
    (harity : tpks.length = values.length) :
    ∀ (i id : Nat) (k : K), tpks[i]? = some (id, k) →
      settledAs (execute c cm tpks values).1 id (slotSettle values[i]?) := by
  intro i id k hi
  have harity2 : (tpks.map Prod.snd).length = values.length := by
    rw [List.length_map]; exact harity
  have hevents : (execute c cm tpks values).1 = (executeLoop c tpks values cm).1 := by
    simp only [execute]
    rw [if_neg (fun hne => hne harity2)]
    simp
  rw [hevents, executeLoop_events_eq c tpks values cm harity]
  have hvi : i < values.length := by
    have h1 : i < tpks.length := (List.getElem?_eq_some.mp hi).1
    omega
  obtain ⟨v, hv⟩ : ∃ v, values[i]? = some v :=
    ⟨_, List.getElem?_eq_getElem hvi⟩
  rw [hv]
  have hzi : (List.zipWith (fun (p : Nat × K) slot =>
      (p.1, @slotSettle V E (some slot))) tpks values)[i]? =
      some (id, slotSettle (some v)) := by
    rw [List.getElem?_zipWith, hi, hv]
  constructor
  · exact List.getElem?_mem hzi
  · intro p hp hpid
    rcases List.mem_iff_getElem?.mp hp with ⟨j, hj⟩
    have hZj := @List.getElem?_zipWith _ _ _ tpks values
      (fun (p : Nat × K) slot => (p.1, @slotSettle V E (some slot))) j
    rw [hj] at hZj
    cases htj : tpks[j]? with
    | none => rw [htj] at hZj; simp at hZj
    | some pj =>
        cases hvj : values[j]? with
        | none => rw [htj, hvj] at hZj; simp at hZj
        | some vj =>
            rw [htj, hvj] at hZj
            have hp2 : p = (pj.1, slotSettle (some vj)) := Option.some.inj hZj
            have hji : j = i := by
              have h1 : (tpks.map Prod.fst)[j]? = some pj.1 := by
                rw [List.getElem?_map, htj]; rfl
              have h2 : (tpks.map Prod.fst)[i]? = some pj.1 := by
                rw [List.getElem?_map, hi]
                have : pj.1 = id := by rw [hp2] at hpid; exact hpid
                simp [this]
              exact nodup_getElem?_inj hnodup h1 h2
            subst hji
            rw [hp2]
            rw [hvj] at hv
            rw [Option.some.inj hv]

/-- With matching arity and distinct request ids, `executeUnique` settles every
caller of the key at distinct-key position `i` exactly as slot `i` dictates. -/
theorem executeUnique_settledAs (c : Bool) (cm : List (K × Option V))
    (tpks : List (Nat × K)) (values : List (LoadSlot V E))
    (hnodup : (tpks.map Prod.fst).Nodup)
    (harity : (uniqueTargetKeys tpks).length = values.length) :
    ∀ (i : Nat) (k : K), (uniqueTargetKeys tpks)[i]? = some k →
      ∀ id : Nat, (id, k) ∈ tpks →
        settledAs (executeUnique c cm tpks values).1 id (slotSettle values[i]?) := by
  intro i k hik id hidk
  have harity2 : ((mergePending tpks).map Prod.fst).length = values.length := harity
  have hevents : (executeUnique c cm tpks values).1 =
      (executeUniqueLoop c (mergePending tpks) values cm).1 := by
    simp only [executeUnique]
    rw [if_neg (fun hne => hne harity2)]
    simp
  rw [hevents]
  have hlen : (mergePending tpks).length = values.length := by
    rw [← harity2, List.length_map]
  have hdk : (dedupFirstSeen (tpks.map Prod.snd))[i]? = some k := by
    rw [← uniqueTargetKeys_eq]; exact hik
  have hmi : (mergePending tpks)[i]? =
      some (k, (tpks.filter (fun p => p.2 = k)).map Prod.fst) := by
    rw [mergePending_eq_groupSpec, groupSpec, List.getElem?_map, hdk]
    rfl
  have hid : id ∈ (tpks.filter (fun p => p.2 = k)).map Prod.fst :=
    List.mem_map.mpr ⟨(id, k), List.mem_filter.mpr ⟨hidk, by simp⟩, rfl⟩
  have honly : ∀ (j : Nat) (e : K × List Nat),
      (mergePending tpks)[j]? = some e → id ∈ e.2 → j = i := by
    intro j e hj hmem
    rw [mergePending_eq_groupSpec, groupSpec, List.getElem?_map] at hj
    rcases Option.map_eq_some'.mp hj with ⟨k2, hk2, hke⟩
    have hmem2 : id ∈ (tpks.filter (fun p => p.2 = k2)).map Prod.fst := by
      rw [← hke] at hmem; exact hmem
    rcases List.mem_map.mp hmem2 with ⟨q, hq, hq1⟩
    rcases List.mem_filter.mp hq with ⟨hqt, hqk⟩
    have hq2 : q.2 = k2 := by simpa using hqk
    have hqe : q = (id, k2) := by
      obtain ⟨q1, q2⟩ := q
      simp only at hq1 hq2
      rw [hq1, hq2]
    have hidk2 : (id, k2) ∈ tpks := hqe ▸ hqt
    have hkk : k2 = k := snd_eq_of_nodup_fst hnodup hidk2 hidk
    rw [hkk] at hk2
    exact nodup_getElem?_inj (dedupSeen_nodup _ []) hk2 hdk
  exact executeUniqueLoop_settledAs c (mergePending tpks) values cm i k
    ((tpks.filter (fun p => p.2 = k)).map Prod.fst) id hlen hmi hid honly

/-- Deleting a key from the cache makes the next lookup of that key miss. -/
theorem cacheGet_cacheDelete (cm : List (K × Option V)) (k : K) :
    cacheGet (cacheDelete cm k) k = none := by
  rw [cacheGet, cacheDelete, Option.map_eq_none', List.find?_eq_none]
  intro x hx
  rcases List.mem_filter.mp hx with ⟨_, hpx⟩
  simp at hpx ⊢
  exact hpx

/-- Any key in the pending queue is part of the key list sent to the load
function, in either mode. -/
theorem mem_flushKeys (s : LoaderState K V) (k : K)
    (h : k ∈ s.pendingKeys.map Prod.snd) : k ∈ flushKeys s := by
  rw [flushKeys]
  by_cases hu : s.unique = true
  · rw [if_pos hu, uniqueTargetKeys_eq, dedupFirstSeen]
    exact (mem_dedupSeen _).mpr ⟨h, by simp⟩
  · rw [if_neg hu]
    exact h

/-- Appending to a non-empty queue pushes the pending key and arms nothing. -/
theorem addToPendingKeys_nonempty (s : LoaderState K V) (k : K) (now : Int)
    (h : s.pendingKeys ≠ []) :
    addToPendingKeys s k now =
      { s with pendingKeys := s.pendingKeys ++ [(s.nextId, k)]
               nextId := s.nextId + 1 } := by
  rw [addToPendingKeys, if_pos (List.length_pos.mpr h)]

/-- Appending to an empty queue pushes the pending key and arms one timer with
delay `max(batchInterval - (now - lastExecutionTime), 0)`. -/
theorem addToPendingKeys_empty (s : LoaderState K V) (k : K) (now : Int)
    (h : s.pendingKeys = []) :
    addToPendingKeys s k now =
      { s with pendingKeys := s.pendingKeys ++ [(s.nextId, k)]
               nextId := s.nextId + 1
               armedTimers := s.armedTimers ++
                 [max (s.batchInterval - (now - s.lastExecutionTime)) 0] } := by
  rw [addToPendingKeys, if_neg (by simp [h])]

/-- Both branches of `addToPendingKeys` push the new pending key at the end. -/
theorem addToPendingKeys_pendingKeys (s : LoaderState K V) (k : K) (now : Int) :
    (addToPendingKeys s k now).pendingKeys = s.pendingKeys ++ [(s.nextId, k)] := by
  rw [addToPendingKeys]
  by_cases h : s.pendingKeys.length > 0
  · rw [if_pos h]
  · rw [if_neg h]

/-- A `loadSingle` that cannot be served from cache goes to `addToPendingKeys`. -/
theorem loadSingle_miss (s : LoaderState K V) (k : K) (now : Int)
    (h : s.cache = false ∨ cacheGet s.cacheMap k = none) :
    loadSingle s k now =
      (SingleOutcome.enqueued s.nextId, addToPendingKeys s k now) := by
  cases hc : s.cache with
  | false => rw [loadSingle, hc]; simp
  | true =>
      rcases h with h | h
      · rw [hc] at h; cases h
      · rw [loadSingle, hc, h]
        simp

/-- With caching off, `loadMultiple` into a non-empty queue appends one pending
entry per key, in order, with consecutive fresh ids, and touches nothing else. -/
theorem loadMultiple_state_nonempty (now : Int) :
    ∀ (keys : List K) (s : LoaderState K V), s.cache = false →
      s.pendingKeys ≠ [] →
      (loadMultiple s keys now).2 =
        { s with pendingKeys :=
                   s.pendingKeys ++ (List.range' s.nextId keys.length).zip keys
                 nextId := s.nextId + keys.length } := by
  intro keys
  induction keys with
  | nil => intro s _ _; simp [loadMultiple]
  | cons k ks ih =>
      intro s hc hne
      have h1 : loadSingle s k now =
          (SingleOutcome.enqueued s.nextId, addToPendingKeys s k now) :=
        loadSingle_miss s k now (Or.inl hc)
      simp only [loadMultiple, h1]
      rw [addToPendingKeys_nonempty s k now hne]
      rw [ih { s with pendingKeys := s.pendingKeys ++ [(s.nextId, k)]
                      nextId := s.nextId + 1 } hc (by simp)]
      simp only [LoaderState.mk.injEq, true_and, and_true]
      constructor
      · rw [List.length_cons, List.range'_succ, List.zip_cons_cons,
          List.append_assoc]
        rfl
      · simp only [List.length_cons]
        omega

/-- C1 (code evidence): flushing batch keys 1,2,3 with caching enabled while the
load function returns only two values rejects all three requests with the
length-mismatch error, yet still performs the per-slot success processing: the
cache receives entries for keys 1 and 2, and even key 3 mapped to the JS
undefined, and the already-rejected promises receive resolve invocations. -/
theorem c1_arity_mismatch_still_processes_slots :
    execute true ([] : List (Nat × Option Nat))
        ([(0, 1), (1, 2), (2, 3)] : List (Nat × Nat))
        ([LoadSlot.value 10, LoadSlot.value 20] : List (LoadSlot Nat Nat)) =
      ([(0, Settle.reject RejectReason.arityMismatch),
        (1, Settle.reject RejectReason.arityMismatch),
        (2, Settle.reject RejectReason.arityMismatch),
        (0, Settle.resolve (some 10)),
        (1, Settle.resolve (some 20)),
        (2, Settle.resolve none)],
       [(1, some 10), (2, some 20), (3, none)]) := by decide

/-- C2 (code evidence): with batch keys 1,2 and a single error slot returned,
request 0 receives two reject invocations (the arity error and then the slot
error) and request 1 receives a reject followed by a resolve: continuations of
a drained pending request are invoked more than once. -/
theorem c2_double_settlement_on_arity_mismatch :
    (execute false ([] : List (Nat × Option Nat))
        ([(0, 1), (1, 2)] : List (Nat × Nat))
        ([LoadSlot.error 7] : List (LoadSlot Nat Nat))).1 =
      [(0, Settle.reject RejectReason.arityMismatch),
       (1, Settle.reject RejectReason.arityMismatch),
       (0, Settle.reject (RejectReason.loadError 7)),
       (1, Settle.resolve none)] := by decide

/-- C3 (code evidence): when the load promise rejects outright, the flush drains
the queue and lets the failure escape without invoking any continuation: the
sole pending request of this batch receives no rejection (no settlement at
all), instead of being rejected with the underlying failure. -/
theorem c3_fetch_failure_settles_nothing :
    flush ((loadSingle (mkLoader 100 false ([] : List (Nat × Option Nat)) false 0)
        5 0).2) 50
        (Except.error 42 : Except Nat (List (LoadSlot Nat Nat))) =
      (Except.error 42,
       { batchInterval := 100, cache := false, unique := false, pendingKeys := []
         lastExecutionTime := 50, cacheMap := [], armedTimers := []
         nextId := 1 }) := by
  rfl

/-- C4: with dedupe enabled, the load function is invoked with exactly the
distinct keys of the batch in first-seen order, and when it returns one slot
per distinct key, every caller that requested a given key is settled exactly as
that key's slot dictates, so all callers of one key receive the identical
resolved value or the identical rejected error. -/
theorem c4_unique_dedupes_and_settles_per_key
    (cacheEnabled : Bool) (cm : List (K × Option V)) (tpks : List (Nat × K))
    (values : List (LoadSlot V E))
    (hnodup : (tpks.map Prod.fst).Nodup)
    (harity : (uniqueTargetKeys tpks).length = values.length) :
    uniqueTargetKeys tpks = dedupFirstSeen (tpks.map Prod.snd) ∧
    (uniqueTargetKeys tpks).Nodup ∧
    (∀ (i : Nat) (k : K), (uniqueTargetKeys tpks)[i]? = some k →
      ∀ id : Nat, (id, k) ∈ tpks →
        settledAs (executeUnique cacheEnabled cm tpks values).1 id
          (slotSettle values[i]?)) := by
  refine ⟨uniqueTargetKeys_eq tpks, ?_, ?_⟩
  · rw [uniqueTargetKeys_eq, dedupFirstSeen]
    exact dedupSeen_nodup _ []
  · exact executeUnique_settledAs cacheEnabled cm tpks values hnodup harity

/-- Witness for C4: batch 1, 2, 1 with two slots returned; both callers of the
repeated key 1 are resolved with the value of slot 0. -/
theorem c4_unique_dedupes_and_settles_per_key_witness :
    ((([(0, 1), (1, 2), (2, 1)] : List (Nat × Nat)).map Prod.fst).Nodup ∧
      (uniqueTargetKeys ([(0, 1), (1, 2), (2, 1)] : List (Nat × Nat))).length =
        ([LoadSlot.value 10, LoadSlot.error 9] : List (LoadSlot Nat Nat)).length) ∧
    settledAs (executeUnique false []
        ([(0, 1), (1, 2), (2, 1)] : List (Nat × Nat))
        ([LoadSlot.value 10, LoadSlot.error 9] : List (LoadSlot Nat Nat))).1 2
      (Settle.resolve (some 10)) ∧
    settledAs (executeUnique false []
        ([(0, 1), (1, 2), (2, 1)] : List (Nat × Nat))
        ([LoadSlot.value 10, LoadSlot.error 9] : List (LoadSlot Nat Nat))).1 0
      (Settle.resolve (some 10)) :=
  ⟨⟨by decide, by decide⟩,
    (c4_unique_dedupes_and_settles_per_key false [] _ _ (by decide)
      (by decide)).2.2 0 1 (by decide) 2 (by decide),
    (c4_unique_dedupes_and_settles_per_key false [] _ _ (by decide)
      (by decide)).2.2 0 1 (by decide) 0 (by decide)⟩

/-- C5: a cache hit resolves immediately with the stored value and leaves the
loader state untouched (no pending request, no timer arming, nothing for any
later flush to fetch); after `clearCache k` the next `loadSingle k` misses the
cache, enqueues a fresh pending request, and the key list of the batch flush
contains `k`. -/
theorem c5_cache_hit_and_eviction (s : LoaderState K V) (k : K)
    (now now2 : Int) (stored : Option V)
    (hc : s.cache = true) (hhit : cacheGet s.cacheMap k = some stored) :
    loadSingle s k now = (SingleOutcome.immediate stored, s) ∧
    cacheGet (clearCache s k).cacheMap k = none ∧
    (loadSingle (clearCache s k) k now2).1 = SingleOutcome.enqueued s.nextId ∧
    k ∈ flushKeys (loadSingle (clearCache s k) k now2).2 := by
  have hclear : (clearCache s k).cacheMap = cacheDelete s.cacheMap k := by
    rw [clearCache, if_pos hc]
  have hmiss : cacheGet (clearCache s k).cacheMap k = none := by
    rw [hclear]; exact cacheGet_cacheDelete s.cacheMap k
  have hload : loadSingle (clearCache s k) k now2 =
      (SingleOutcome.enqueued (clearCache s k).nextId,
        addToPendingKeys (clearCache s k) k now2) :=
    loadSingle_miss _ k now2 (Or.inr hmiss)
  have hnext : (clearCache s k).nextId = s.nextId := by
    rw [clearCache, if_pos hc]
  refine ⟨?_, hmiss, ?_, ?_⟩
  · rw [loadSingle, hc, hhit]
    simp
  · rw [hload, hnext]
  · rw [hload]
    apply mem_flushKeys
    show k ∈ (addToPendingKeys (clearCache s k) k now2).pendingKeys.map Prod.snd
    rw [addToPendingKeys_pendingKeys]
    simp

/-- Witness for C5 at a concrete loader whose cache holds key 1. -/
theorem c5_cache_hit_and_eviction_witness :
    ((mkLoader 100 true ([(1, some 42)] : List (Nat × Option Nat)) false 0 :
        LoaderState Nat Nat).cache = true ∧
      cacheGet (mkLoader 100 true ([(1, some 42)] : List (Nat × Option Nat))
          false 0 : LoaderState Nat Nat).cacheMap 1 = some (some 42)) ∧
    (loadSingle (mkLoader 100 true [(1, some 42)] false 0 : LoaderState Nat Nat)
        1 30 =
      (SingleOutcome.immediate (some 42), mkLoader 100 true [(1, some 42)] false 0) ∧
    cacheGet (clearCache (mkLoader 100 true [(1, some 42)] false 0 :
        LoaderState Nat Nat) 1).cacheMap 1 = none ∧
    (loadSingle (clearCache (mkLoader 100 true [(1, some 42)] false 0 :
        LoaderState Nat Nat) 1) 1 250).1 = SingleOutcome.enqueued 0 ∧
    (1 : Nat) ∈ flushKeys (loadSingle (clearCache (mkLoader 100 true
        [(1, some 42)] false 0 : LoaderState Nat Nat) 1) 1 250).2) :=
  ⟨⟨by decide, by decide⟩,
    c5_cache_hit_and_eviction (mkLoader 100 true [(1, some 42)] false 0) 1 30 250
      (some 42) (by decide) (by decide)⟩

/-- C7: with matching arity, every request is settled exactly as the slot at
its own position (respectively its key's position in dedupe mode) dictates:
`slotSettle` of an error slot is a rejection with precisely that error, and of
a value slot a resolution with that value, so an error slot rejects only the
request(s) of its own key while sibling requests settle from their own slots,
unaffected. -/
theorem c7_per_slot_errors_isolated (cacheEnabled : Bool)
    (cm : List (K × Option V)) (tpks : List (Nat × K))
    (values : List (LoadSlot V E))
    (hnodup : (tpks.map Prod.fst).Nodup) :
    (tpks.length = values.length →
      ∀ (i id : Nat) (k : K), tpks[i]? = some (id, k) →
        settledAs (execute cacheEnabled cm tpks values).1 id
          (slotSettle values[i]?)) ∧
    ((uniqueTargetKeys tpks).length = values.length →
      ∀ (i : Nat) (k : K), (uniqueTargetKeys tpks)[i]? = some k →
        ∀ id : Nat, (id, k) ∈ tpks →
          settledAs (executeUnique cacheEnabled cm tpks values).1 id
            (slotSettle values[i]?)) :=
  ⟨fun h => execute_settledAs cacheEnabled cm tpks values hnodup h,
   fun h => executeUnique_settledAs cacheEnabled cm tpks values hnodup h⟩

/-- Witness for C7: batch 1, 2 with an error in slot 0 and a value in slot 1;
request 0 is rejected with exactly that error while its sibling request 1 is
resolved with its own slot's value. -/
theorem c7_per_slot_errors_isolated_witness :
    ((([(0, 1), (1, 2)] : List (Nat × Nat)).map Prod.fst).Nodup ∧
      ([(0, 1), (1, 2)] : List (Nat × Nat)).length =
        ([LoadSlot.error 9, LoadSlot.value 5] : List (LoadSlot Nat Nat)).length) ∧
    settledAs (execute false [] ([(0, 1), (1, 2)] : List (Nat × Nat))
        ([LoadSlot.error 9, LoadSlot.value 5] : List (LoadSlot Nat Nat))).1 0
      (Settle.reject (RejectReason.loadError 9)) ∧
    settledAs (execute false [] ([(0, 1), (1, 2)] : List (Nat × Nat))
        ([LoadSlot.error 9, LoadSlot.value 5] : List (LoadSlot Nat Nat))).1 1
      (Settle.resolve (some 5)) :=
  ⟨⟨by decide, by decide⟩,
    (c7_per_slot_errors_isolated false [] _ _ (by decide)).1 (by decide)
      0 0 1 (by decide),
    (c7_per_slot_errors_isolated false [] _ _ (by decide)).1 (by decide)
      1 1 2 (by decide)⟩

/-- C9: `loadMultiple` on the empty key list yields the empty result list and
returns the state unchanged: no pending request is created, no timer armed, and
no flush of this call ever reaches the load function. -/
theorem c9_empty_loadMultiple (s : LoaderState K V) (now : Int) :
    loadMultiple s [] now = ([], s) := rfl

/-- C10: the loader's last execution time starts at construction time, so the
first request's timer delay is `max(batchInterval - (now - constructionTime), 0)`
and a first request at least one interval after construction is flushed with
zero delay. -/
theorem c10_first_request_delay (batchInterval : Int) (cacheEnabled : Bool)
    (cacheMap : List (K × Option V)) (uniqueEnabled : Bool)
    (ctime now : Int) (k : K)
    (hmiss : cacheEnabled = false ∨ cacheGet cacheMap k = none)
    (hlate : batchInterval ≤ now - ctime) :
    (mkLoader batchInterval cacheEnabled cacheMap uniqueEnabled ctime :
        LoaderState K V).lastExecutionTime = ctime ∧
    (loadSingle (mkLoader batchInterval cacheEnabled cacheMap uniqueEnabled
        ctime) k now).2.armedTimers =
      [max (batchInterval - (now - ctime)) 0] ∧
    (loadSingle (mkLoader batchInterval cacheEnabled cacheMap uniqueEnabled
        ctime) k now).2.armedTimers = [(0 : Int)] := by
  have hload := loadSingle_miss
    (mkLoader batchInterval cacheEnabled cacheMap uniqueEnabled ctime :
      LoaderState K V) k now hmiss
  have hadd := addToPendingKeys_empty
    (mkLoader batchInterval cacheEnabled cacheMap uniqueEnabled ctime :
      LoaderState K V) k now rfl
  refine ⟨rfl, ?_, ?_⟩
  · rw [hload, hadd]
    simp [mkLoader]
  · rw [hload, hadd]
    have hz : max (batchInterval - (now - ctime)) 0 = 0 :=
      max_eq_right (by omega)
    simp [mkLoader, hz]

/-- Witness for C10: interval 100, construction at time 0, first request at
time 250; the armed delay is zero. -/
theorem c10_first_request_delay_witness :
    (((false : Bool) = false ∨
        cacheGet ([] : List (Nat × Option Nat)) 1 = none) ∧
      (100 : Int) ≤ 250 - 0) ∧
    ((mkLoader 100 false ([] : List (Nat × Option Nat)) false 0 :
        LoaderState Nat Nat).lastExecutionTime = 0 ∧
    (loadSingle (mkLoader 100 false ([] : List (Nat × Option Nat)) false 0 :
        LoaderState Nat Nat) 1 250).2.armedTimers = [max (100 - (250 - 0)) 0] ∧
    (loadSingle (mkLoader 100 false ([] : List (Nat × Option Nat)) false 0 :
        LoaderState Nat Nat) 1 250).2.armedTimers = [(0 : Int)]) :=
  ⟨⟨Or.inl rfl, by decide⟩,
    c10_first_request_delay 100 false [] false 0 250 1 (Or.inl rfl) (by decide)⟩

/-- C8: the queue/timer invariant is preserved by every operation: appending to
an empty queue arms exactly one one-shot timer with delay
`max(batchInterval - (now - lastExecutionTime), 0)`, appending to a non-empty
queue arms no new timer, and after request intake or a flush a non-empty queue
has exactly one armed timer while an empty queue has none. -/
theorem c8_queue_timer_invariant (s : LoaderState K V) (k : K) (now : Int)
    (hinv : timerInv s) :
    (s.pendingKeys = [] →
      (addToPendingKeys s k now).armedTimers =
        s.armedTimers ++ [max (s.batchInterval - (now - s.lastExecutionTime)) 0]) ∧
    (s.pendingKeys ≠ [] →
      (addToPendingKeys s k now).armedTimers = s.armedTimers) ∧
    timerInv (addToPendingKeys s k now) ∧
    timerInv (loadSingle s k now).2 ∧
    (s.pendingKeys ≠ [] →
      ∀ outcome : Except F (List (LoadSlot V E)),
        timerInv (flush s now outcome).2) := by
  obtain ⟨hinv1, hinv2⟩ := hinv
  have hflp : ∀ outcome : Except F (List (LoadSlot V E)),
      (flush s now outcome).2.pendingKeys = ([] : List (Nat × K)) ∧
      (flush s now outcome).2.armedTimers = s.armedTimers.drop 1 := by
    intro outcome
    cases outcome with
    | error f => exact ⟨rfl, rfl⟩
    | ok values => exact ⟨rfl, rfl⟩
  have hadd : timerInv (addToPendingKeys s k now) := by
    by_cases h : s.pendingKeys = []
    · rw [addToPendingKeys_empty s k now h]
      refine ⟨fun habs => ?_, fun _ => ?_⟩
      · simp at habs
      · show (s.armedTimers ++
            [max (s.batchInterval - (now - s.lastExecutionTime)) 0]).length = 1
        rw [hinv1 h]
        rfl
    · rw [addToPendingKeys_nonempty s k now h]
      refine ⟨fun habs => ?_, fun _ => hinv2 h⟩
      · simp at habs
  have hload : timerInv (loadSingle s k now).2 := by
    cases hc : s.cache with
    | false =>
        rw [loadSingle_miss s k now (Or.inl hc)]
        exact hadd
    | true =>
        cases hg : cacheGet s.cacheMap k with
        | none =>
            rw [loadSingle_miss s k now (Or.inr hg)]
            exact hadd
        | some stored =>
            have hres : loadSingle s k now = (SingleOutcome.immediate stored, s) := by
              rw [loadSingle, hc, hg]
              simp
            rw [hres]
            exact ⟨hinv1, hinv2⟩
  refine ⟨fun h => ?_, fun h => ?_, hadd, hload, fun h outcome => ?_⟩
  · rw [addToPendingKeys_empty s k now h]
  · rw [addToPendingKeys_nonempty s k now h]
  · refine ⟨fun _ => ?_, fun hne => absurd (hflp outcome).1 hne⟩
    rw [(hflp outcome).2, List.drop_eq_nil_iff, hinv2 h]

/-- Witness for C8 at an idle loader. -/
theorem c8_queue_timer_invariant_witness :
    timerInv (mkLoader 100 false ([] : List (Nat × Option Nat)) false 0 :
        LoaderState Nat Nat) ∧
    (((mkLoader 100 false ([] : List (Nat × Option Nat)) false 0 :
          LoaderState Nat Nat).pendingKeys = [] →
        (addToPendingKeys (mkLoader 100 false [] false 0 : LoaderState Nat Nat)
            1 30).armedTimers =
          (mkLoader 100 false [] false 0 : LoaderState Nat Nat).armedTimers ++
            [max ((mkLoader 100 false [] false 0 :
                LoaderState Nat Nat).batchInterval -
              (30 - (mkLoader 100 false [] false 0 :
                LoaderState Nat Nat).lastExecutionTime)) 0]) ∧
      ((mkLoader 100 false [] false 0 : LoaderState Nat Nat).pendingKeys ≠ [] →
        (addToPendingKeys (mkLoader 100 false [] false 0 : LoaderState Nat Nat)
            1 30).armedTimers =
          (mkLoader 100 false [] false 0 : LoaderState Nat Nat).armedTimers) ∧
      timerInv (addToPendingKeys
        (mkLoader 100 false [] false 0 : LoaderState Nat Nat) 1 30) ∧
      timerInv (loadSingle
        (mkLoader 100 false [] false 0 : LoaderState Nat Nat) 1 30).2 ∧
      ((mkLoader 100 false [] false 0 : LoaderState Nat Nat).pendingKeys ≠ [] →
        ∀ outcome : Except Nat (List (LoadSlot Nat Nat)),
          timerInv (flush (mkLoader 100 false [] false 0 :
            LoaderState Nat Nat) 30 outcome).2)) :=
  ⟨by decide,
    c8_queue_timer_invariant (mkLoader 100 false [] false 0) 1 30 (by decide)⟩

/-- C6: with dedupe disabled and caching off, a run of requests into an idle
loader accumulates every key in arrival order with duplicates kept and exactly
one armed timer for the whole batch; the single flush passes exactly that key
list to the load function and, with matching arity, settles each occurrence 1:1
by position with the result slots. -/
theorem c6_single_flush_arrival_order (s : LoaderState K V) (keys : List K)
    (now now2 : Int)
    (hq : s.pendingKeys = []) (ht : s.armedTimers = []) (hc : s.cache = false)
    (hu : s.unique = false) (hne : keys ≠ []) :
    (loadMultiple s keys now).2.pendingKeys.map Prod.snd = keys ∧
    (loadMultiple s keys now).2.armedTimers.length = 1 ∧
    flushKeys (loadMultiple s keys now).2 = keys ∧
    (∀ values : List (LoadSlot V E), values.length = keys.length →
      (flush (loadMultiple s keys now).2 now2
          (Except.ok values : Except F (List (LoadSlot V E)))).1 =
        Except.ok (List.zipWith (fun p slot => (p.1, slotSettle (some slot)))
          (loadMultiple s keys now).2.pendingKeys values)) := by
  obtain ⟨k, ks, rfl⟩ : ∃ k2 ks, keys = k2 :: ks := by
    cases keys with
    | nil => exact absurd rfl hne
    | cons k2 ks => exact ⟨k2, ks, rfl⟩
  have h1 : loadSingle s k now =
      (SingleOutcome.enqueued s.nextId, addToPendingKeys s k now) :=
    loadSingle_miss s k now (Or.inl hc)
  have hstep : (loadMultiple s (k :: ks) now).2 =
      (loadMultiple (addToPendingKeys s k now) ks now).2 := by
    simp only [loadMultiple, h1]
  rw [addToPendingKeys_empty s k now hq] at hstep
  rw [loadMultiple_state_nonempty now ks
    { s with pendingKeys := s.pendingKeys ++ [(s.nextId, k)]
             nextId := s.nextId + 1
             armedTimers := s.armedTimers ++
               [max (s.batchInterval - (now - s.lastExecutionTime)) 0] }
    (by exact hc) (by simp)] at hstep
  have hpend : (loadMultiple s (k :: ks) now).2.pendingKeys =
      (s.nextId, k) :: (List.range' (s.nextId + 1) ks.length).zip ks := by
    rw [hstep]
    simp [hq]
  have harm : (loadMultiple s (k :: ks) now).2.armedTimers =
      [max (s.batchInterval - (now - s.lastExecutionTime)) 0] := by
    rw [hstep]
    simp [ht]
  have huq : (loadMultiple s (k :: ks) now).2.unique = false := by
    rw [hstep]
    exact hu
  have hmap : (loadMultiple s (k :: ks) now).2.pendingKeys.map Prod.snd =
      k :: ks := by
    rw [hpend, List.map_cons,
      List.map_snd_zip _ _ (by simp [List.length_range'])]
  have hfk : flushKeys (loadMultiple s (k :: ks) now).2 = k :: ks := by
    rw [flushKeys, if_neg (by simp [huq]), hmap]
  refine ⟨hmap, by rw [harm]; rfl, hfk, ?_⟩
  intro values hvlen
  have hbatch : (loadMultiple s (k :: ks) now).2.pendingKeys.length =
      values.length := by
    have hl := congrArg List.length hmap
    rw [List.length_map] at hl
    rw [hl, hvlen]
  have harity : ((loadMultiple s (k :: ks) now).2.pendingKeys.map
      Prod.snd).length = values.length := by
    rw [List.length_map]
    exact hbatch
  simp only [flush, huq]
  rw [if_neg (by simp)]
  have hex : (execute (loadMultiple s (k :: ks) now).2.cache
      (loadMultiple s (k :: ks) now).2.cacheMap
      (loadMultiple s (k :: ks) now).2.pendingKeys values).1 =
      List.zipWith (fun p slot => (p.1, slotSettle (some slot)))
        (loadMultiple s (k :: ks) now).2.pendingKeys values := by
    simp only [execute]
    rw [if_neg (fun hne2 => hne2 harity), List.nil_append]
    exact executeLoop_events_eq _ _ _ _ hbatch
  rw [hex]

/-- Witness for C6: keys 1, 1, 2 loaded into an idle loader; a matching result
settles the three occurrences positionally. -/
theorem c6_single_flush_arrival_order_witness :
    ((mkLoader 100 false ([] : List (Nat × Option Nat)) false 0 :
        LoaderState Nat Nat).pendingKeys = [] ∧
      (mkLoader 100 false [] false 0 : LoaderState Nat Nat).armedTimers = [] ∧
      (mkLoader 100 false [] false 0 : LoaderState Nat Nat).cache = false ∧
      (mkLoader 100 false [] false 0 : LoaderState Nat Nat).unique = false ∧
      ([1, 1, 2] : List Nat) ≠ []) ∧
    ((loadMultiple (mkLoader 100 false [] false 0 : LoaderState Nat Nat)
        [1, 1, 2] 30).2.pendingKeys.map Prod.snd = [1, 1, 2] ∧
    (loadMultiple (mkLoader 100 false [] false 0 : LoaderState Nat Nat)
        [1, 1, 2] 30).2.armedTimers.length = 1 ∧
    flushKeys (loadMultiple (mkLoader 100 false [] false 0 :
        LoaderState Nat Nat) [1, 1, 2] 30).2 = [1, 1, 2] ∧
    (∀ values : List (LoadSlot Nat Nat), values.length = ([1, 1, 2] : List Nat).length →
      (flush (loadMultiple (mkLoader 100 false [] false 0 :
            LoaderState Nat Nat) [1, 1, 2] 30).2 230
          (Except.ok values : Except Nat (List (LoadSlot Nat Nat)))).1 =
        Except.ok (List.zipWith (fun p slot => (p.1, slotSettle (some slot)))
          (loadMultiple (mkLoader 100 false [] false 0 :
            LoaderState Nat Nat) [1, 1, 2] 30).2.pendingKeys values))) :=
  ⟨⟨rfl, rfl, rfl, rfl, by decide⟩,
    c6_single_flush_arrival_order (mkLoader 100 false [] false 0) [1, 1, 2]
      30 230 rfl rfl rfl rfl (by decide)⟩

end PDL
